import Mathlib

/-!
Verification of core logic of the yargs-file-commands package: path
segmentation, directory scanning, command-module import, positional-argument
validation and segment-tree construction, shallowly embedded from the
TypeScript sources into Lean.

JavaScript strings are modelled as Lean `String`/`List Char`; the few regular
expressions the code uses are embedded as the equivalent character-level
scanners; promises and thrown exceptions become `Except String`.
-/

namespace YFC

/-! ## String utilities with JavaScript semantics -/

/-- The character class of the path-separator regex `[/\\]`. -/
def isPathSep (c : Char) : Bool := c == '/' || c == '\\'

/-- JS `s.replace(pat, '')` for a plain-string pattern: removes the first
occurrence of `pat`, or leaves the list unchanged when `pat` does not occur. -/
def dropFirstOcc (pat : List Char) : List Char → List Char
  | [] => []
  | c :: cs =>
    if pat.isPrefixOf (c :: cs) then (c :: cs).drop pat.length
    else c :: dropFirstOcc pat cs

/-- JS `s.split(sep)` for a character-class separator, keeping empty fields
(`"a//b".split(/[/\\]/)` is `["a","","b"]`). -/
def splitCharsP (p : Char → Bool) : List Char → List (List Char)
  | [] => [[]]
  | c :: cs =>
    if p c then [] :: splitCharsP p cs
    else
      match splitCharsP p cs with
      | [] => [[c]]
      | g :: gs => (c :: g) :: gs

/-- Shallow embedding of `segmentPath` (src/lib/segmentPath.ts, lines 24-39):
strip the first occurrence of `baseDir`, strip leading separators (the
`LEADING_SLASHES_REGEX` replace), split on `PATH_SEPARATOR_REGEX`, split every
segment on `'.'`, and drop empty segments and the literal `command`. -/
def segmentPath (fullPath baseDir : String) : List String :=
  let relativePath := (dropFirstOcc baseDir.data fullPath.data).dropWhile isPathSep
  let allSegments := splitCharsP isPathSep relativePath
  let processedSegments :=
    ((allSegments.map (splitCharsP (fun c => c == '.'))).flatten.map String.mk).filter
      (fun seg => seg != "" && seg != "command")
  processedSegments

/-- `true` when the string contains a path-separator character. -/
def hasPathSep (s : String) : Bool := s.data.any isPathSep

/-! ### Facts about the splitter -/

theorem splitCharsP_ne_nil (p : Char → Bool) (l : List Char) : splitCharsP p l ≠ [] := by
  cases l with
  | nil => simp [splitCharsP]
  | cons c cs =>
    simp only [splitCharsP]
    split
    · simp
    · split <;> simp

theorem mem_splitCharsP (p : Char → Bool) (l : List Char) :
    ∀ g ∈ splitCharsP p l, ∀ c ∈ g, c ∈ l ∧ p c = false := by
  induction l with
  | nil =>
    intro g hg c hc
    simp [splitCharsP] at hg
    subst hg
    simp at hc
  | cons d ds ih =>
    intro g hg c hc
    simp only [splitCharsP] at hg
    by_cases hd : p d
    · rw [if_pos hd] at hg
      rcases List.mem_cons.mp hg with hg | hg
      · subst hg; simp at hc
      · rcases ih g hg c hc with ⟨h1, h2⟩
        exact ⟨List.mem_cons_of_mem _ h1, h2⟩
    · rw [if_neg hd] at hg
      rcases h : splitCharsP p ds with _ | ⟨g0, gs⟩
      · exact absurd h (splitCharsP_ne_nil p ds)
      · rw [h] at hg
        rcases List.mem_cons.mp hg with hg | hg
        · subst hg
          rcases List.mem_cons.mp hc with hc | hc
          · subst hc
            exact ⟨List.mem_cons_self _ _, by simpa using hd⟩
          · rcases ih g0 (by rw [h]; exact List.mem_cons_self _ _) c hc with ⟨h1, h2⟩
            exact ⟨List.mem_cons_of_mem _ h1, h2⟩
        · rcases ih g (by rw [h]; exact List.mem_cons_of_mem _ hg) c hc with ⟨h1, h2⟩
          exact ⟨List.mem_cons_of_mem _ h1, h2⟩

/-- C6: every element of a `segmentPath` result is neither `command` nor the
empty string and contains no path-separator character. -/
theorem segmentPath_elements_clean (fullPath baseDir : String) :
    ∀ s ∈ segmentPath fullPath baseDir,
      s ≠ "command" ∧ s ≠ "" ∧ hasPathSep s = false := by
  intro s hs
  unfold segmentPath at hs
  simp only [List.mem_filter, Bool.and_eq_true, bne_iff_ne, ne_eq] at hs
  obtain ⟨hmem, hne, hnc⟩ := hs
  refine ⟨hnc, hne, ?_⟩
  simp only [List.mem_map] at hmem
  obtain ⟨g, hg, rfl⟩ := hmem
  simp only [List.mem_flatten, List.mem_map] at hg
  obtain ⟨gs, ⟨g0, hg0, rfl⟩, hgmem⟩ := hg
  have sep0 : ∀ c ∈ g0, isPathSep c = false := by
    intro c hc
    exact (mem_splitCharsP _ _ _ hg0 c hc).2
  have : ∀ c ∈ g, isPathSep c = false := by
    intro c hc
    exact sep0 c (mem_splitCharsP _ _ _ hgmem c hc).1
  simp only [hasPathSep, List.any_eq_false]
  intro c hc
  simpa using this c hc

/-- C6 witness: a concrete evaluation of the cleanliness property. -/
theorem segmentPath_elements_clean_witness :
    "db" ∈ segmentPath "/base/db/migration/command.ts" "/base" ∧
      ("db" ≠ "command" ∧ "db" ≠ "" ∧ hasPathSep "db" = false) :=
  ⟨by decide,
    segmentPath_elements_clean "/base/db/migration/command.ts" "/base" "db" (by decide)⟩

/-- C5: `segmentPath` dot-splits uniformly (including the extension), drops the
literal `command` token, and keeps the trailing extension token. -/
theorem segmentPath_examples :
    segmentPath "/base/a/b.c.ts" "/base" = ["a", "b", "c", "ts"] ∧
      segmentPath "/base/db/migration/command.ts" "/base" = ["db", "migration", "ts"] := by
  constructor <;> rfl

/-! ## Directory scanning (src/lib/scanDirectory.ts) -/

/-- A file-system entry: a file, or a directory with its own entries. -/
inductive FSEntry where
  | file (name : String)
  | dir (name : String) (entries : List FSEntry)

/-- Node `path.join(dirPath, entry)` for a simple entry name (no separators,
no `..`), as produced by `readdir`. -/
def joinPath (dirPath entry : String) : String :=
  match dirPath.data.getLast? with
  | some '/' => dirPath ++ entry
  | _ => dirPath ++ "/" ++ entry

/-- Node `path.extname`: the suffix of the basename from its last dot, or the
empty string when the basename has no dot or only a leading dot.  (The special
casing of the names `.` and `..`, which `readdir` never returns, is not
modelled.) -/
def extname (p : String) : String :=
  let b := (splitCharsP isPathSep p.data).getLastD []
  let afterDot := b.reverse.takeWhile (fun c => c != '.')
  if afterDot.length = b.length then ""
  else if b.length = afterDot.length + 1 then ""
  else String.mk (b.drop (b.length - afterDot.length - 1))

/-- The single `SYSTEM_IGNORE_PATTERNS` regex `^[.].*` (scanDirectory.ts line
25): it matches exactly the strings whose first character is a dot.  As in the
source, it is tested against the local path, not the entry name. -/
def systemIgnorePat (s : String) : Bool :=
  match s.data with
  | [] => false
  | c :: _ => c == '.'

mutual
/-- One iteration of the entry loop in `scanDirectory` (scanDirectory.ts lines
72-124): compute `fullPath` and `localPath`, test the system pattern and the
caller-supplied `ignorePatterns` against `localPath`, recurse into
directories, and keep files whose extension is in `extensions`. -/
def scanEntry (commandDir : String) (ignorePatterns : List (String → Bool))
    (extensions : List String) (dirPath : String) : FSEntry → List String
  | .file name =>
    let fullPath := joinPath dirPath name
    let localPath := String.mk (dropFirstOcc commandDir.data fullPath.data)
    if systemIgnorePat localPath || ignorePatterns.any (fun pat => pat localPath) then []
    else if extensions.contains (extname fullPath) then [fullPath]
    else []
  | .dir name entries =>
    let fullPath := joinPath dirPath name
    let localPath := String.mk (dropFirstOcc commandDir.data fullPath.data)
    if systemIgnorePat localPath || ignorePatterns.any (fun pat => pat localPath) then []
    else scanEntryList commandDir ignorePatterns extensions fullPath entries

/-- The entry loop of `scanDirectory` over the entries of one directory. -/
def scanEntryList (commandDir : String) (ignorePatterns : List (String → Bool))
    (extensions : List String) (dirPath : String) : List FSEntry → List String
  | [] => []
  | e :: es =>
    scanEntry commandDir ignorePatterns extensions dirPath e ++
      scanEntryList commandDir ignorePatterns extensions dirPath es
end

/-- Shallow embedding of `scanDirectory` (src/unnamed/part_006, lines 52-133):
`entries` is the content of `dirPath` in the scanned file system.  The
resolved `ignorePatterns` (caller-supplied, or the defaults) and `extensions`
are taken as parameters; the system pattern is always tested first, as in the
source.  The readdir-failure branch is not modelled (the modelled file system
is always readable). -/
def scanDirectory (dirPath commandDir : String) (ignorePatterns : List (String → Bool))
    (extensions : List String) (entries : List FSEntry) : List String :=
  scanEntryList commandDir ignorePatterns extensions dirPath entries

/-- C1 (code-bug evidence): scanning `/base` containing the hidden file
`.hidden.ts` with no caller ignore patterns RETURNS the hidden file instead of
excluding it.  The system pattern `^[.].*` is tested against the local path
`/.hidden.ts`, whose first character is `/`, so it never matches; the hidden
directory `.git` is likewise descended into. -/
theorem scanDirectory_returns_hidden_file :
    scanDirectory "/base" "/base" [] [".ts"]
        [FSEntry.file ".hidden.ts", FSEntry.dir ".git" [FSEntry.file "config.ts"]] =
      ["/base/.hidden.ts", "/base/.git/config.ts"] ∧
    systemIgnorePat "/.hidden.ts" = false := by
  constructor
  · decide
  · decide

/-! ## JavaScript values and command-module objects -/

/-- An observable action of a function-typed yargs builder during the trial
execution in `extractPositionalsFromBuilder`: a call to `.positional(name,
config)` on the wrapped yargs instance, or a thrown error (execution stops at
the first throw). -/
inductive BuilderStep where
  | registerPositional (name : String)
  | throwErr (msg : String)
deriving DecidableEq

/-- The fragment of JavaScript values that command modules use.  A function is
represented by the builder-step trace its trial execution produces. -/
inductive JSValue where
  | undefinedV
  | nullV
  | boolV (b : Bool)
  | strV (s : String)
  | arrV (elems : List JSValue)
  | funcV (steps : List BuilderStep)
  | objV (fields : List (String × JSValue))

/-- JavaScript truthiness for the modelled values. -/
def truthy : JSValue → Bool
  | .undefinedV => false
  | .nullV => false
  | .boolV b => b
  | .strV s => s != ""
  | _ => true

/-- JavaScript nullishness (`??` triggers on these). -/
def nullish : JSValue → Bool
  | .undefinedV => true
  | .nullV => true
  | _ => false

/-- First binding of key `k` in an object (module export lookup). -/
def lookupKey (o : List (String × JSValue)) (k : String) : Option JSValue :=
  (o.find? (fun kv => kv.1 == k)).map (fun kv => kv.2)

/-- JS property read `o[k]`: `undefined` when the key is absent. -/
def getField (o : List (String × JSValue)) (k : String) : JSValue :=
  (lookupKey o k).getD .undefinedV

/-- JS property read on an arbitrary value: named properties of non-objects
(including arrays) read as `undefined`. -/
def getProp : JSValue → String → JSValue
  | .objV fields, k => getField fields k
  | _, _ => .undefinedV

mutual
/-- JS string conversion `` `${v}` `` for the modelled values (function source
text is abstracted to `function`). -/
def jsToString : JSValue → String
  | .undefinedV => "undefined"
  | .nullV => "null"
  | .boolV b => cond b "true" "false"
  | .strV s => s
  | .funcV _ => "function"
  | .objV _ => "[object Object]"
  | .arrV l => String.intercalate "," (jsToStringList l)

/-- Elements of an array under `Array.prototype.toString`: `null` and
`undefined` render as the empty string. -/
def jsToStringList : List JSValue → List String
  | [] => []
  | .undefinedV :: vs => "" :: jsToStringList vs
  | .nullV :: vs => "" :: jsToStringList vs
  | v :: vs => jsToString v :: jsToStringList vs
end

/-! ## Substring containment -/

/-- `sub` occurs contiguously inside `s`. -/
def strContains (s sub : String) : Prop :=
  ∃ l r : List Char, s.data = l ++ sub.data ++ r

theorem strContains_self (s : String) : strContains s s :=
  ⟨[], [], by simp⟩

theorem strContains_start (sub r : String) : strContains (sub ++ r) sub :=
  ⟨[], r.data, by simp⟩

theorem strContains_prepend (a : String) {s sub : String} (h : strContains s sub) :
    strContains (a ++ s) sub := by
  obtain ⟨l, r, hl⟩ := h
  exact ⟨a.data ++ l, r, by simp [hl]⟩

theorem strContains_append_after {s sub : String} (a : String) (h : strContains s sub) :
    strContains (s ++ a) sub := by
  obtain ⟨l, r, hl⟩ := h
  exact ⟨l, r ++ a.data, by simp [hl]⟩

/-! ## Positional-argument validation (src/lib/validatePositionals.ts) -/

/-- The global regex `[<[]([^>\]]+)[>\]]` of
`extractPositionalsFromCommandString`, run as a single left-to-right scan: an
opening `<` or `[`, a maximal nonempty run of characters other than `>` and
`]` (the capture), then one closing `>` or `]`.  The accumulator holds the
reversed pending capture while one is open. -/
def scanPositionals : Option (List Char) → List Char → List String
  | _, [] => []
  | none, c :: cs =>
    if c == '<' || c == '[' then scanPositionals (some []) cs
    else scanPositionals none cs
  | some acc, c :: cs =>
    if c == '>' || c == ']' then
      match acc with
      | [] => scanPositionals none cs
      | _ => String.mk acc.reverse :: scanPositionals none cs
    else scanPositionals (some (c :: acc)) cs

/-- Shallow embedding of `extractPositionalsFromCommandString`
(validatePositionals.ts lines 11-39). -/
def extractPositionalsFromCommandString (commandString : JSValue) : List String :=
  if truthy commandString = false then []
  else
    let cmd :=
      match commandString with
      | .arrV l => l.headD .undefinedV
      | v => v
    match cmd with
    | .strV s => if s == "" then [] else scanPositionals none s.data
    | _ => []

/-- The trial execution of a function-typed builder against the wrapped yargs
instance: the names passed to `.positional` in order, and the thrown error if
the builder threw. -/
def runBuilderTrial : List BuilderStep → List String × Option String
  | [] => ([], none)
  | .registerPositional n :: rest =>
    let r := runBuilderTrial rest
    (n :: r.1, r.2)
  | .throwErr m :: _ => ([], some m)

/-- Shallow embedding of `extractPositionalsFromBuilder`
(validatePositionals.ts lines 48-82): an absent builder and a non-function
(static object mapping) builder yield no positionals; a function builder is
trial-executed and a thrown error is swallowed, keeping the names collected
before the throw. -/
def extractPositionalsFromBuilder : JSValue → List String
  | .funcV steps => (runBuilderTrial steps).1
  | _ => []

/-- The error of validatePositionals.ts lines 104-108. -/
def positionalsNoneDeclaredMsg (filePath : String) (builderPositionals : List String)
    (commandString : JSValue) : String :=
  "Command in " ++ (filePath ++ (" has " ++ (toString builderPositionals.length ++
    (" positional argument(s) registered in builder (" ++
    (String.intercalate ", " builderPositionals ++
    (") but none declared in command string \"" ++ (jsToString commandString ++
    "\". Positional arguments must be declared in the command string (e.g., \"create <arg1> <arg2>\").")))))))

/-- The error of validatePositionals.ts lines 115-119. -/
def positionalsNotDeclaredMsg (filePath : String) (missing : List String)
    (commandString : JSValue) : String :=
  "Command in " ++ (filePath ++ (" has positional argument(s) registered in builder (" ++
    (String.intercalate ", " missing ++
    (") that are not declared in command string \"" ++ (jsToString commandString ++
    "\". All positional arguments must be declared in the command string (e.g., \"create <arg1> <arg2>\").")))))

/-- Shallow embedding of `validatePositionals` (validatePositionals.ts lines
92-125) on a command-module object. -/
def validatePositionals (commandModule : List (String × JSValue)) (filePath : String) :
    Except String Unit :=
  let commandString := getField commandModule "command"
  let builder := getField commandModule "builder"
  let commandStringPositionals := extractPositionalsFromCommandString commandString
  let builderPositionals := extractPositionalsFromBuilder builder
  if 0 < builderPositionals.length ∧ commandStringPositionals.length = 0 then
    .error (positionalsNoneDeclaredMsg filePath builderPositionals commandString)
  else
    let missingInCommandString :=
      builderPositionals.filter (fun pos => !(commandStringPositionals.contains pos))
    if 0 < missingInCommandString.length then
      .error (positionalsNotDeclaredMsg filePath missingInCommandString commandString)
    else .ok ()

/-- C7: a function-typed builder that throws during the trial execution yields
exactly the positionals registered before the throw, and the error is not
propagated (the extractor returns normally); a static object-mapping builder
yields no positionals. -/
theorem extractPositionalsFromBuilder_spec :
    (∀ (pre post : List BuilderStep) (msg : String),
        (∀ s ∈ pre, ∀ m, s ≠ BuilderStep.throwErr m) →
        extractPositionalsFromBuilder
            (JSValue.funcV (pre ++ BuilderStep.throwErr msg :: post)) =
          pre.filterMap (fun s =>
            match s with
            | BuilderStep.registerPositional n => some n
            | BuilderStep.throwErr _ => none)) ∧
    (∀ fields, extractPositionalsFromBuilder (JSValue.objV fields) = []) := by
  constructor
  · intro pre post msg hpre
    induction pre with
    | nil => simp [extractPositionalsFromBuilder, runBuilderTrial]
    | cons s rest ih =>
      cases s with
      | registerPositional n =>
        have ih' := ih (fun s hs m => hpre s (List.mem_cons_of_mem _ hs) m)
        simp only [extractPositionalsFromBuilder] at ih' ⊢
        simp only [List.cons_append, runBuilderTrial, List.filterMap_cons]
        exact congrArg (List.cons n) ih'
      | throwErr m => exact absurd rfl (hpre _ (List.mem_cons_self _ _) m)
  · intro fields
    rfl

/-- C7 witness: a builder registering `name` and then throwing yields exactly
`[name]`; an object-mapping builder yields `[]`. -/
theorem extractPositionalsFromBuilder_spec_witness :
    extractPositionalsFromBuilder
        (JSValue.funcV [BuilderStep.registerPositional "name", BuilderStep.throwErr "boom"]) =
      ["name"] ∧
    extractPositionalsFromBuilder (JSValue.objV [("name", JSValue.objV [])]) = [] := by
  constructor
  · have h := extractPositionalsFromBuilder_spec.1 [BuilderStep.registerPositional "name"] []
      "boom" (by intro s hs m; simp at hs; subst hs; simp)
    simpa using h
  · exact extractPositionalsFromBuilder_spec.2 [("name", JSValue.objV [])]

/-- C2: `validatePositionals` fails exactly when the builder registers
positionals while the command string declares none, or registers a positional
absent from the command string's declared list; a name declared in the command
string but not registered never causes failure; every failure message contains
the file path and the comma-joined enumeration of exactly the offending
positional names. -/
theorem validatePositionals_spec (commandModule : List (String × JSValue)) (filePath : String) :
    ((∃ e, validatePositionals commandModule filePath = Except.error e) ↔
      ((extractPositionalsFromBuilder (getField commandModule "builder") ≠ [] ∧
          extractPositionalsFromCommandString (getField commandModule "command") = []) ∨
        ∃ p ∈ extractPositionalsFromBuilder (getField commandModule "builder"),
          p ∉ extractPositionalsFromCommandString (getField commandModule "command"))) ∧
    (∀ e, validatePositionals commandModule filePath = Except.error e →
        strContains e filePath ∧
        strContains e (String.intercalate ", "
          ((extractPositionalsFromBuilder (getField commandModule "builder")).filter
            (fun pos =>
              !((extractPositionalsFromCommandString
                  (getField commandModule "command")).contains pos))))) := by
  set cs := getField commandModule "command" with hcs
  set bp := extractPositionalsFromBuilder (getField commandModule "builder") with hbp
  set csp := extractPositionalsFromCommandString cs with hcsp
  have hval : validatePositionals commandModule filePath =
      if 0 < bp.length ∧ csp.length = 0 then
        Except.error (positionalsNoneDeclaredMsg filePath bp cs)
      else if 0 < (bp.filter (fun pos => !(csp.contains pos))).length then
        Except.error
          (positionalsNotDeclaredMsg filePath (bp.filter (fun pos => !(csp.contains pos))) cs)
      else Except.ok () := rfl
  by_cases h1 : 0 < bp.length ∧ csp.length = 0
  · rw [if_pos h1] at hval
    have hcspnil : csp = [] := List.length_eq_zero.mp h1.2
    refine ⟨⟨fun _ => Or.inl ⟨List.length_pos.mp h1.1, hcspnil⟩, fun _ => ⟨_, hval⟩⟩, ?_⟩
    intro e he
    rw [hval] at he
    injection he with he'
    subst he'
    have hfil : bp.filter (fun pos => !(csp.contains pos)) = bp := by
      rw [hcspnil]
      simp
    rw [hfil]
    constructor
    · exact strContains_prepend _ (strContains_start _ _)
    · unfold positionalsNoneDeclaredMsg
      exact strContains_prepend _ (strContains_prepend _ (strContains_prepend _
        (strContains_prepend _ (strContains_prepend _ (strContains_start _ _)))))
  · rw [if_neg h1] at hval
    by_cases h2 : 0 < (bp.filter (fun pos => !(csp.contains pos))).length
    · rw [if_pos h2] at hval
      refine ⟨⟨fun _ => ?_, fun _ => ⟨_, hval⟩⟩, ?_⟩
      · right
        obtain ⟨p, hp⟩ := List.exists_mem_of_length_pos h2
        have h3 := List.mem_filter.mp hp
        refine ⟨p, h3.1, ?_⟩
        intro hmem
        have : csp.contains p = true := by simpa using hmem
        rw [this] at h3
        simp at h3
      · intro e he
        rw [hval] at he
        injection he with he'
        subst he'
        constructor
        · exact strContains_prepend _ (strContains_start _ _)
        · unfold positionalsNotDeclaredMsg
          exact strContains_prepend _ (strContains_prepend _ (strContains_prepend _
            (strContains_start _ _)))
    · rw [if_neg h2] at hval
      refine ⟨⟨fun h => ?_, fun h => ?_⟩, ?_⟩
      · obtain ⟨e, he⟩ := h
        rw [hval] at he
        simp at he
      · exfalso
        rcases h with ⟨hne, hnil⟩ | ⟨p, hp, hnp⟩
        · exact h1 ⟨List.length_pos.mpr hne, by rw [hnil]; rfl⟩
        · apply h2
          apply List.length_pos.mpr
          have : p ∈ bp.filter (fun pos => !(csp.contains pos)) :=
            List.mem_filter.mpr ⟨hp, by simpa using hnp⟩
          exact List.ne_nil_of_mem this
      · intro e he
        rw [hval] at he
        simp at he

/-- C2 witness: a module whose builder registers `name` while its command
string `create` declares no positionals fails, and the message contains the
file path. -/
theorem validatePositionals_spec_witness :
    validatePositionals
        [("command", JSValue.strV "create"),
          ("builder", JSValue.funcV [BuilderStep.registerPositional "name"])] "cmds/create.ts" =
      Except.error
        (positionalsNoneDeclaredMsg "cmds/create.ts" ["name"] (JSValue.strV "create")) ∧
    strContains (positionalsNoneDeclaredMsg "cmds/create.ts" ["name"] (JSValue.strV "create"))
      "cmds/create.ts" := by
  refine ⟨rfl, ?_⟩
  exact ((validatePositionals_spec
      [("command", JSValue.strV "create"),
        ("builder", JSValue.funcV [BuilderStep.registerPositional "name"])] "cmds/create.ts").2
    (positionalsNoneDeclaredMsg "cmds/create.ts" ["name"] (JSValue.strV "create")) rfl).1

/-! ## Command import (src/lib/importCommand.ts) -/

/-- importCommand.ts line 126: `'command' in imported && typeof
 imported.command === 'object' && imported.command !== null` — the export
named `command` exists and is a non-null object, selecting the
CommandModule-export declaration style. -/
def isCommandModuleExport (imported : List (String × JSValue)) : Bool :=
  match lookupKey imported "command" with
  | some (.objV _) => true
  | some (.arrV _) => true
  | _ => false

/-- The allow-list of importCommand.ts line 168.  Note `alias` (singular)
although the resolver reads the field `aliases` (plural). -/
def supportedNames : List String :=
  ["command", "describe", "alias", "builder", "deprecated", "handler"]

/-- The error of importCommand.ts lines 174-178. -/
def unsupportedExportsMsg (name realPath : String) (unsupportedExports : List String) : String :=
  "Command module " ++ (name ++ (" in " ++ (realPath ++
    (" has some unsupported exports, probably a misspelling: " ++
    (String.intercalate ", " unsupportedExports ++
    (". Supported exports are: " ++ (String.intercalate ", " supportedNames ++ ".")))))))

/-- The command module assembled from flat exports (importCommand.ts lines
154-165): absent `command` falls back to the name (or `$0` for the default),
absent `handler` falls back to a null implementation. -/
def flatCommandObj (imported : List (String × JSValue)) (name : String) :
    List (String × JSValue) :=
  let isDefault := name == "$default"
  let commandField :=
    if nullish (getField imported "command") then
      (if isDefault then JSValue.strV "$0" else JSValue.strV name)
    else getField imported "command"
  let handlerField :=
    if nullish (getField imported "handler") then JSValue.funcV []
    else getField imported "handler"
  [("command", commandField),
   ("describe", getField imported "describe"),
   ("aliases", getField imported "aliases"),
   ("builder", getField imported "builder"),
   ("deprecated", getField imported "deprecated"),
   ("handler", handlerField)]

/-- Shallow embedding of `importCommandFromFile` (importCommand.ts lines
83-186) from the point where the module has been loaded: `imported` is the
module's export object, `name` the fallback command name, `realPath` the
resolved file path (used only in messages).  Path resolution, the existence
check and the dynamic import itself are not modelled. -/
def importCommandFromFile (imported : List (String × JSValue)) (name realPath : String) :
    Except String (List (String × JSValue)) :=
  let isDefault := name == "$default"
  if isCommandModuleExport imported then
    let commandModule := getField imported "command"
    let commandField :=
      if !(truthy (getProp commandModule "command")) && !isDefault then JSValue.strV name
      else if isDefault && !(truthy (getProp commandModule "command")) then JSValue.strV "$0"
      else getProp commandModule "command"
    .ok [("command", commandField),
         ("describe", getProp commandModule "describe"),
         ("builder", getProp commandModule "builder"),
         ("handler", getProp commandModule "handler"),
         ("deprecated", getProp commandModule "deprecated"),
         ("aliases", getProp commandModule "aliases")]
  else
    let unsupportedExports :=
      (imported.map (fun kv => kv.1)).filter (fun key => !(supportedNames.contains key))
    if 0 < unsupportedExports.length then
      .error (unsupportedExportsMsg name realPath unsupportedExports)
    else .ok (flatCommandObj imported name)

/-- C3: in the flat-exports style, import succeeds exactly when every
top-level export name is in the recognized set (the check covers all exports,
not only the consumed fields), and a failure carries exactly the rejected
export names. -/
theorem importCommandFromFile_flat_exports (imported : List (String × JSValue))
    (name realPath : String) (hflat : isCommandModuleExport imported = false) :
    ((∃ m, importCommandFromFile imported name realPath = Except.ok m) ↔
      ∀ key ∈ imported.map (fun kv => kv.1), key ∈ supportedNames) ∧
    (∀ e, importCommandFromFile imported name realPath = Except.error e →
      e = unsupportedExportsMsg name realPath
        ((imported.map (fun kv => kv.1)).filter (fun key => !(supportedNames.contains key)))) := by
  set keys := imported.map (fun kv => kv.1) with hkeys
  set unsupported := keys.filter (fun key => !(supportedNames.contains key)) with hus
  have hbranch : importCommandFromFile imported name realPath =
      if 0 < unsupported.length then
        Except.error (unsupportedExportsMsg name realPath unsupported)
      else Except.ok (flatCommandObj imported name) := by
    unfold importCommandFromFile
    rw [hflat]
    simp only [Bool.false_eq_true, if_false]
  rw [hbranch]
  by_cases hpos : 0 < unsupported.length
  · rw [if_pos hpos]
    obtain ⟨key, hkey⟩ := List.exists_mem_of_length_pos hpos
    have h3 := List.mem_filter.mp hkey
    refine ⟨⟨fun h => ?_, fun h => ?_⟩, ?_⟩
    · obtain ⟨m, hm⟩ := h
      simp at hm
    · exfalso
      have := h key h3.1
      have h4 : supportedNames.contains key = true := by simpa using this
      rw [h4] at h3
      simp at h3
    · intro e he
      injection he with he'
      exact he'.symm
  · rw [if_neg hpos]
    have hnil : unsupported = [] := by
      rcases List.eq_nil_or_concat unsupported with h | ⟨l, a, h⟩
      · exact h
      · exfalso
        apply hpos
        rw [h]
        simp
    refine ⟨⟨fun _ key hkey => ?_, fun _ => ⟨_, rfl⟩⟩, ?_⟩
    · have := List.filter_eq_nil_iff.mp hnil key hkey
      simpa using this
    · intro e he
      simp at he

/-- C3 witness: a flat module exporting the misspelled `describtion` is
rejected with a message naming exactly that export. -/
theorem importCommandFromFile_flat_exports_witness :
    importCommandFromFile [("describtion", JSValue.strV "oops")] "triage" "/cmds/triage.ts" =
      Except.error (unsupportedExportsMsg "triage" "/cmds/triage.ts" ["describtion"]) ∧
    ¬∃ m, importCommandFromFile [("describtion", JSValue.strV "oops")] "triage" "/cmds/triage.ts" =
      Except.ok m := by
  refine ⟨rfl, fun hex => ?_⟩
  have h := (importCommandFromFile_flat_exports [("describtion", JSValue.strV "oops")]
      "triage" "/cmds/triage.ts" rfl).1.mp hex "describtion" (by simp)
  simp [supportedNames] at h

/-- C8: in both declaration styles, a module that declares no command name has
the resulting command field set to the fallback name, except that the reserved
fallback `$default` becomes the yargs root-invocation marker `$0`. -/
theorem importCommandFromFile_default_name (imported : List (String × JSValue))
    (name realPath : String) :
    (isCommandModuleExport imported = true →
      getProp (getField imported "command") "command" = JSValue.undefinedV →
      ∀ m, importCommandFromFile imported name realPath = Except.ok m →
        getField m "command" = JSValue.strV (if name == "$default" then "$0" else name)) ∧
    (isCommandModuleExport imported = false →
      lookupKey imported "command" = none →
      ∀ m, importCommandFromFile imported name realPath = Except.ok m →
        getField m "command" = JSValue.strV (if name == "$default" then "$0" else name)) := by
  constructor
  · intro hstyle habsent m hm
    unfold importCommandFromFile at hm
    rw [hstyle] at hm
    simp only [if_true] at hm
    rw [habsent] at hm
    injection hm with hm'
    subst hm'
    by_cases hd : name == "$default"
    · simp [hd, getField, lookupKey, truthy]
    · simp [hd, getField, lookupKey, truthy]
  · intro hstyle habsent m hm
    unfold importCommandFromFile at hm
    rw [hstyle] at hm
    simp only [Bool.false_eq_true, if_false] at hm
    split at hm
    · simp at hm
    · injection hm with hm'
      subst hm'
      unfold flatCommandObj
      have hgf : getField imported "command" = JSValue.undefinedV := by
        unfold getField
        rw [habsent]
        rfl
      rw [hgf]
      by_cases hd : name == "$default"
      · simp [hd, getField, lookupKey, nullish]
      · simp [hd, getField, lookupKey, nullish]

/-- C8 witness: a flat module without a `command` export imported under the
fallback name `$default` resolves its command field to `$0`. -/
theorem importCommandFromFile_default_name_witness :
    importCommandFromFile [("describe", JSValue.strV "root")] "$default" "/cmds/$default.ts" =
      Except.ok (flatCommandObj [("describe", JSValue.strV "root")] "$default") ∧
    getField (flatCommandObj [("describe", JSValue.strV "root")] "$default") "command" =
      JSValue.strV "$0" := by
  refine ⟨rfl, ?_⟩
  have h := (importCommandFromFile_default_name [("describe", JSValue.strV "root")]
      "$default" "/cmds/$default.ts").2 rfl rfl
      (flatCommandObj [("describe", JSValue.strV "root")] "$default") rfl
  simpa using h

/-! ## Segment tree (src/unnamed/part_001, the current buildSegmentTree.ts) -/

/-- A discovered command (src/lib/Command.ts): file path, derived segments and
the imported command module, as assembled by `fileCommands` (the optional
`isDefault` key is never set there). -/
structure Command where
  fullPath : String
  segments : List String
  commandModule : List (String × JSValue)

/-- A node of the command tree (part_001 lines 9-25). -/
inductive CommandTreeNode where
  | leaf (segmentName : String) (command : Command)
  | internal (segmentName : String) (children : List CommandTreeNode)

/-- The `segmentName` property common to both node shapes. -/
def CommandTreeNode.segmentName : CommandTreeNode → String
  | .leaf n _ => n
  | .internal n _ => n

/-! ### JSON.stringify for the conflict diagnostics -/

/-- One hexadecimal digit (lower case). -/
def hexDigit (n : Nat) : Char :=
  if n < 10 then Char.ofNat (48 + n) else Char.ofNat (87 + n)

/-- JSON.stringify escaping of a single character. -/
def jsonEscapeChar (c : Char) : List Char :=
  if c = '"' then ['\\', '"']
  else if c = '\\' then ['\\', '\\']
  else if c = '\n' then ['\\', 'n']
  else if c = '\r' then ['\\', 'r']
  else if c = '\t' then ['\\', 't']
  else if c = Char.ofNat 8 then ['\\', 'b']
  else if c = Char.ofNat 12 then ['\\', 'f']
  else if c.toNat < 32 then
    ['\\', 'u', '0', '0', hexDigit (c.toNat / 16), hexDigit (c.toNat % 16)]
  else [c]

/-- JSON.stringify escaping of a string body. -/
def jsonEscapeString (s : String) : String :=
  String.mk ((s.data.map jsonEscapeChar).flatten)

/-- A JSON string literal. -/
def jsonQuote (s : String) : String := "\"" ++ (jsonEscapeString s ++ "\"")

/-- Comma-joined pieces (JSON separators; equal to `Array.prototype.join`). -/
def joinComma : List String → String
  | [] => ""
  | [s] => s
  | s :: rest => s ++ ("," ++ joinComma rest)

mutual
/-- JSON.stringify of a modelled JS value: `none` for values JSON.stringify
omits from objects (`undefined` and functions). -/
def jsonOfJSValue : JSValue → Option String
  | .undefinedV => none
  | .funcV _ => none
  | .nullV => some "null"
  | .boolV b => some (cond b "true" "false")
  | .strV s => some (jsonQuote s)
  | .arrV l => some ("[" ++ (joinComma (jsonOfArrElems l) ++ "]"))
  | .objV fields => some ("\x7b" ++ (joinComma (jsonOfObjFields fields) ++ "\x7d"))

/-- Array elements render omitted values as `null`. -/
def jsonOfArrElems : List JSValue → List String
  | [] => []
  | v :: vs => ((jsonOfJSValue v).getD "null") :: jsonOfArrElems vs

/-- Object fields with omitted values are skipped. -/
def jsonOfObjFields : List (String × JSValue) → List String
  | [] => []
  | (k, v) :: kvs =>
    match jsonOfJSValue v with
    | none => jsonOfObjFields kvs
    | some j => (jsonQuote k ++ (":" ++ j)) :: jsonOfObjFields kvs
end

/-- JSON.stringify of a segments array. -/
def jsonOfStrList (l : List String) : String :=
  "[" ++ (joinComma (l.map jsonQuote) ++ "]")

/-- JSON.stringify of a `Command` object (keys in insertion order). -/
def jsonStringifyCommand (c : Command) : String :=
  "\x7b\"fullPath\":" ++ (jsonQuote c.fullPath ++ (",\"segments\":" ++
    (jsonOfStrList c.segments ++ (",\"commandModule\":" ++
    (("\x7b" ++ (joinComma (jsonOfObjFields c.commandModule) ++ "\x7d")) ++ "\x7d")))))

mutual
/-- JSON.stringify of a tree node (keys in the insertion order of part_001
lines 71-75 and 88-92). -/
def jsonStringifyNode : CommandTreeNode → String
  | .leaf n c =>
    "\x7b\"type\":\"leaf\",\"segmentName\":" ++ (jsonQuote n ++ (",\"command\":" ++
      (jsonStringifyCommand c ++ "\x7d")))
  | .internal n children =>
    "\x7b\"type\":\"internal\",\"segmentName\":" ++ (jsonQuote n ++ (",\"children\":[" ++
      (joinComma (jsonStringifyNodes children) ++ "]\x7d")))

/-- JSON.stringify of a list of tree nodes. -/
def jsonStringifyNodes : List CommandTreeNode → List String
  | [] => []
  | n :: ns => jsonStringifyNode n :: jsonStringifyNodes ns
end

/-- The conflict error of part_001 lines 76-81 (an internal node found while
inserting the last segment); the separator between the two JSON objects is a
bare comma. -/
def conflictLastSegmentMsg (segmentName : String) (node : CommandTreeNode)
    (command : Command) : String :=
  "Conflict: " ++ (segmentName ++ (" is both a directory and a command " ++
    (jsonStringifyNode node ++ ("," ++ jsonStringifyCommand command))))

/-- The conflict error of part_001 lines 94-99 (a leaf found while descending
through a non-final segment); the separator is a comma and a space. -/
def conflictMidPathMsg (segmentName : String) (node : CommandTreeNode)
    (command : Command) : String :=
  "Conflict: " ++ (segmentName ++ (" is both a directory and a command " ++
    (jsonStringifyNode node ++ (", " ++ jsonStringifyCommand command))))

/-- Shallow embedding of `insertIntoTree` (part_001 lines 53-104) as a pure
function on sibling lists.  The source indexes `command.segments` with a
`depth` counter; here the yet-unprocessed suffix `command.segments.drop depth`
is passed instead, which makes the recursion structural.  An existing leaf at
the last segment is silently kept (no duplicate, no error), exactly as in the
source. -/
def insertIntoTree (treeNodes : List CommandTreeNode) (command : Command) :
    List String → Except String (List CommandTreeNode)
  | [] => .ok treeNodes
  | [currentSegmentName] =>
    match treeNodes.find? (fun n => n.segmentName == currentSegmentName) with
    | none => .ok (treeNodes ++ [.leaf currentSegmentName command])
    | some (.leaf _ _) => .ok treeNodes
    | some (.internal n children) =>
      .error (conflictLastSegmentMsg currentSegmentName (.internal n children) command)
  | currentSegmentName :: seg2 :: rest =>
    match treeNodes.findIdx? (fun n => n.segmentName == currentSegmentName) with
    | none =>
      match insertIntoTree [] command (seg2 :: rest) with
      | .error e => .error e
      | .ok children => .ok (treeNodes ++ [.internal currentSegmentName children])
    | some i =>
      match treeNodes[i]? with
      | none => .ok treeNodes
      | some (.leaf n c) =>
        .error (conflictMidPathMsg currentSegmentName (.leaf n c) command)
      | some (.internal n children) =>
        match insertIntoTree children command (seg2 :: rest) with
        | .error e => .error e
        | .ok children2 => .ok (treeNodes.set i (.internal n children2))

/-- The command loop of `buildSegmentTree` (part_001 lines 36-44). -/
def insertAllCommands : List Command → List CommandTreeNode → Except String (List CommandTreeNode)
  | [], treeNodes => .ok treeNodes
  | c :: cs, treeNodes =>
    match insertIntoTree treeNodes c c.segments with
    | .error e => .error e
    | .ok treeNodes2 => insertAllCommands cs treeNodes2

/-- Shallow embedding of `buildSegmentTree` (part_001 lines 36-44). -/
def buildSegmentTree (commands : List Command) : Except String (List CommandTreeNode) :=
  insertAllCommands commands []

/-! ### Containment of the file paths in the conflict diagnostics -/

theorem strContains_jsonCommand (c : Command) (h : jsonEscapeString c.fullPath = c.fullPath) :
    strContains (jsonStringifyCommand c) c.fullPath := by
  unfold jsonStringifyCommand jsonQuote
  rw [h]
  exact strContains_prepend _ (strContains_append_after _
    (strContains_prepend _ (strContains_start _ _)))

theorem strContains_jsonNode_leaf (n : String) (c : Command)
    (h : jsonEscapeString c.fullPath = c.fullPath) :
    strContains (jsonStringifyNode (.leaf n c)) c.fullPath := by
  simp only [jsonStringifyNode]
  exact strContains_prepend _ (strContains_prepend _ (strContains_prepend _
    (strContains_append_after _ (strContains_jsonCommand c h))))

theorem strContains_jsonNode_internal_single (n m : String) (c : Command)
    (h : jsonEscapeString c.fullPath = c.fullPath) :
    strContains (jsonStringifyNode (.internal n [.leaf m c])) c.fullPath := by
  simp only [jsonStringifyNode, jsonStringifyNodes, joinComma]
  exact strContains_prepend _ (strContains_prepend _ (strContains_prepend _
    (strContains_append_after _ (strContains_jsonNode_leaf m c h))))

/-- C4: commands with segments `[db]` and `[db, migration]` make
`buildSegmentTree` fail in both insertion orders, with an error containing the
colliding segment name `db` and both original file paths (via the stringified
definitions). -/
theorem buildSegmentTree_conflict (p1 p2 : String) (m1 m2 : List (String × JSValue))
    (h1 : jsonEscapeString p1 = p1) (h2 : jsonEscapeString p2 = p2) :
    (∃ e, buildSegmentTree [⟨p1, ["db"], m1⟩, ⟨p2, ["db", "migration"], m2⟩] =
        Except.error e ∧ strContains e "db" ∧ strContains e p1 ∧ strContains e p2) ∧
    (∃ e, buildSegmentTree [⟨p2, ["db", "migration"], m2⟩, ⟨p1, ["db"], m1⟩] =
        Except.error e ∧ strContains e "db" ∧ strContains e p1 ∧ strContains e p2) := by
  constructor
  · refine ⟨conflictMidPathMsg "db" (.leaf "db" ⟨p1, ["db"], m1⟩)
      ⟨p2, ["db", "migration"], m2⟩, rfl, ?_, ?_, ?_⟩
    · unfold conflictMidPathMsg
      exact strContains_prepend _ (strContains_start _ _)
    · unfold conflictMidPathMsg
      exact strContains_prepend _ (strContains_prepend _ (strContains_prepend _
        (strContains_append_after _ (strContains_jsonNode_leaf "db" ⟨p1, ["db"], m1⟩ h1))))
    · unfold conflictMidPathMsg
      exact strContains_prepend _ (strContains_prepend _ (strContains_prepend _
        (strContains_prepend _ (strContains_prepend _
          (strContains_jsonCommand ⟨p2, ["db", "migration"], m2⟩ h2)))))
  · refine ⟨conflictLastSegmentMsg "db"
      (.internal "db" [.leaf "migration" ⟨p2, ["db", "migration"], m2⟩])
      ⟨p1, ["db"], m1⟩, rfl, ?_, ?_, ?_⟩
    · unfold conflictLastSegmentMsg
      exact strContains_prepend _ (strContains_start _ _)
    · unfold conflictLastSegmentMsg
      exact strContains_prepend _ (strContains_prepend _ (strContains_prepend _
        (strContains_prepend _ (strContains_prepend _
          (strContains_jsonCommand ⟨p1, ["db"], m1⟩ h1)))))
    · unfold conflictLastSegmentMsg
      exact strContains_prepend _ (strContains_prepend _ (strContains_prepend _
        (strContains_append_after _
          (strContains_jsonNode_internal_single "db" "migration"
            ⟨p2, ["db", "migration"], m2⟩ h2))))

/-- C4 witness: the conflict at concrete inputs, fallback-name order first. -/
theorem buildSegmentTree_conflict_witness :
    ∃ e, buildSegmentTree
        [⟨"/commands/db.js", ["db"], [("describe", JSValue.strV "DB command")]⟩,
          ⟨"/commands/db/migration/command.js", ["db", "migration"], []⟩] =
      Except.error e ∧ strContains e "db" ∧ strContains e "/commands/db.js" ∧
        strContains e "/commands/db/migration/command.js" :=
  (buildSegmentTree_conflict "/commands/db.js" "/commands/db/migration/command.js"
    [("describe", JSValue.strV "DB command")] [] (by decide) (by decide)).1

/-! ## The discovery pipeline (src/unnamed/part_007, fileCommands.ts) -/

/-- Node `path.isAbsolute` on posix. -/
def isAbsolutePath (p : String) : Bool :=
  match p.data with
  | '/' :: _ => true
  | _ => false

/-- `ext.startsWith('.')` for the extensions validation. -/
def startsWithDot (s : String) : Bool :=
  match s.data with
  | '.' :: _ => true
  | _ => false

/-- Sequential sequencing of the per-element results (`Promise.all` with the
first rejection). -/
def mapExcept {α β : Type} (f : α → Except String β) : List α → Except String (List β)
  | [] => .ok []
  | x :: xs =>
    match f x with
    | .error e => .error e
    | .ok y =>
      match mapExcept f xs with
      | .error e => .error e
      | .ok ys => .ok (y :: ys)

/-- `createCommand` (part_001 lines 116-140): a leaf yields its command
module; an internal node yields a group module whose builder and handler
closures are abstracted as function values. -/
def createCommand : CommandTreeNode → List (String × JSValue)
  | .leaf _ c => c.commandModule
  | .internal n _ =>
    [("command", JSValue.strV n),
     ("describe", JSValue.strV (n ++ " commands")),
     ("builder", JSValue.funcV []),
     ("handler", JSValue.funcV [])]

/-- Per-file processing inside `fileCommands` (part_007 lines 232-265): derive
the segments, drop the trailing extension segment when more than one remains,
load the module under the last segment as fallback name, and validate the
positionals when validation is enabled. -/
def processFile (modules : String → List (String × JSValue)) (validation : Bool)
    (commandDir filePath : String) : Except String Command :=
  let segments0 := segmentPath filePath commandDir
  let segments := if 1 < segments0.length then segments0.dropLast else segments0
  if segments0.length = 0 then
    .error ("No segments found for file: " ++ filePath)
  else
    match segments.getLast? with
    | none => .error ("No segments found for file: " ++ filePath)
    | some lastSegment =>
      match importCommandFromFile (modules filePath) lastSegment filePath with
      | .error e => .error e
      | .ok commandModule =>
        match (if validation then validatePositionals commandModule filePath
               else Except.ok ()) with
        | .error e => .error e
        | .ok _ => .ok ⟨filePath, segments, commandModule⟩

/-- Shallow embedding of `fileCommands` (part_007 lines 189-286): option
validation, scanning every configured directory, per-file processing, the
no-commands check, tree building and command creation.  The file system is
`fsys` (the entries under each scanned root) and the dynamic import is
`modules`; the parallel `Promise.all` is sequenced left to right. -/
def fileCommands (commandDirs extensions : List String)
    (ignorePatterns : List (String → Bool)) (validation : Bool)
    (fsys : String → List FSEntry) (modules : String → List (String × JSValue)) :
    Except String (List (List (String × JSValue))) :=
  if extensions.any (fun ext => !(startsWithDot ext)) then
    .error ("Invalid extensions provided, must start with a dot: " ++
      String.intercalate ", " extensions)
  else if commandDirs.length = 0 then
    .error "No command directories provided"
  else
    let nonAbsoluteDirs := commandDirs.filter (fun dir => !(isAbsolutePath dir))
    if 0 < nonAbsoluteDirs.length then
      .error ("Command directories must be absolute paths: " ++
        String.intercalate ", " nonAbsoluteDirs)
    else
      let files :=
        (commandDirs.map (fun commandDir =>
          (scanDirectory commandDir commandDir ignorePatterns extensions (fsys commandDir)).map
            (fun filePath => (commandDir, filePath)))).flatten
      match mapExcept (fun df => processFile modules validation df.1 df.2) files with
      | .error e => .error e
      | .ok commands =>
        if commands.length = 0 then
          .error ("No commands found in specified directories: " ++
            String.intercalate ", " commandDirs)
        else
          match buildSegmentTree commands with
          | .error e => .error e
          | .ok commandRootNodes => .ok (commandRootNodes.map createCommand)

/-! ### Lemmas for the never-empty result -/

theorem processFile_segments_ne_nil (modules : String → List (String × JSValue))
    (validation : Bool) (commandDir filePath : String) (c : Command)
    (h : processFile modules validation commandDir filePath = .ok c) :
    c.segments ≠ [] := by
  simp only [processFile] at h
  split at h
  · simp at h
  · split at h
    · simp at h
    · rename_i lastSegment hlast
      split at h
      · simp at h
      · split at h
        · simp at h
        · injection h with h'
          subst h'
          dsimp only
          intro hnil
          rw [hnil] at hlast
          simp at hlast

theorem insertIntoTree_length_le (nodes : List CommandTreeNode) (cmd : Command)
    (rest : List String) (nodes' : List CommandTreeNode)
    (h : insertIntoTree nodes cmd rest = .ok nodes') : nodes.length ≤ nodes'.length := by
  match rest with
  | [] =>
    unfold insertIntoTree at h
    injection h with h'
    subst h'
    exact Nat.le_refl _
  | [s] =>
    unfold insertIntoTree at h
    split at h
    · injection h with h'
      subst h'
      simp
    · injection h with h'
      subst h'
      exact Nat.le_refl _
    · simp at h
  | s :: s2 :: r =>
    unfold insertIntoTree at h
    split at h
    · split at h
      · simp at h
      · injection h with h'
        subst h'
        simp
    · split at h
      · injection h with h'
        subst h'
        exact Nat.le_refl _
      · simp at h
      · split at h
        · simp at h
        · injection h with h'
          subst h'
          simp

theorem insertIntoTree_nil_ne_nil (cmd : Command) (rest : List String)
    (nodes' : List CommandTreeNode) (hrest : rest ≠ [])
    (h : insertIntoTree [] cmd rest = .ok nodes') : nodes' ≠ [] := by
  match rest with
  | [] => exact absurd rfl hrest
  | [s] =>
    unfold insertIntoTree at h
    simp only [List.find?_nil] at h
    injection h with h'
    subst h'
    simp
  | s :: s2 :: r =>
    unfold insertIntoTree at h
    simp only [List.findIdx?_nil] at h
    split at h
    · simp at h
    · injection h with h'
      subst h'
      simp

theorem insertAllCommands_ne_nil (cs : List Command) (nodes nodes' : List CommandTreeNode)
    (h : insertAllCommands cs nodes = .ok nodes') (hne : nodes ≠ []) : nodes' ≠ [] := by
  induction cs generalizing nodes with
  | nil =>
    unfold insertAllCommands at h
    injection h with h'
    subst h'
    exact hne
  | cons c cs ih =>
    unfold insertAllCommands at h
    split at h
    · simp at h
    · rename_i n2 hins
      apply ih n2 h
      have hle := insertIntoTree_length_le nodes c c.segments n2 hins
      have : 0 < nodes.length := List.length_pos.mpr hne
      exact List.length_pos.mp (Nat.lt_of_lt_of_le this hle)

theorem buildSegmentTree_ne_nil (commands : List Command) (roots : List CommandTreeNode)
    (hne : commands ≠ []) (hseg : ∀ c ∈ commands, c.segments ≠ [])
    (h : buildSegmentTree commands = .ok roots) : roots ≠ [] := by
  obtain ⟨c, cs, rfl⟩ := List.exists_cons_of_ne_nil hne
  unfold buildSegmentTree insertAllCommands at h
  split at h
  · simp at h
  · rename_i n1 hins
    have hn1 : n1 ≠ [] :=
      insertIntoTree_nil_ne_nil c c.segments n1 (hseg c (List.mem_cons_self _ _)) hins
    exact insertAllCommands_ne_nil cs n1 roots h hn1

theorem mapExcept_ok_mem {α β : Type} (f : α → Except String β) :
    ∀ (xs : List α) (ys : List β), mapExcept f xs = .ok ys →
      ∀ y ∈ ys, ∃ x ∈ xs, f x = .ok y := by
  intro xs
  induction xs with
  | nil =>
    intro ys h y hy
    unfold mapExcept at h
    injection h with h'
    subst h'
    simp at hy
  | cons x xs ih =>
    intro ys h y hy
    unfold mapExcept at h
    split at h
    · simp at h
    · rename_i y0 hy0
      split at h
      · simp at h
      · rename_i ys0 hys0
        injection h with h'
        subst h'
        rcases List.mem_cons.mp hy with rfl | hmem
        · exact ⟨x, List.mem_cons_self _ _, hy0⟩
        · obtain ⟨x1, hx1, hfx1⟩ := ih ys0 hys0 y hmem
          exact ⟨x1, List.mem_cons_of_mem _ hx1, hfx1⟩

/-- C9: if every configured directory scans to zero command files (and the
option pre-checks pass), `fileCommands` fails with the no-commands error
naming the searched directories; and `fileCommands` never returns an empty
command list. -/
theorem fileCommands_no_commands (commandDirs extensions : List String)
    (ignorePatterns : List (String → Bool)) (validation : Bool)
    (fsys : String → List FSEntry) (modules : String → List (String × JSValue)) :
    ((∀ ext ∈ extensions, startsWithDot ext = true) → commandDirs ≠ [] →
      (∀ d ∈ commandDirs, isAbsolutePath d = true) →
      (∀ d ∈ commandDirs, scanDirectory d d ignorePatterns extensions (fsys d) = []) →
      fileCommands commandDirs extensions ignorePatterns validation fsys modules =
        Except.error ("No commands found in specified directories: " ++
          String.intercalate ", " commandDirs)) ∧
    (∀ cs, fileCommands commandDirs extensions ignorePatterns validation fsys modules =
        Except.ok cs → cs ≠ []) := by
  constructor
  · intro hext hdirs habs hscan
    have hA : (extensions.any fun ext => !(startsWithDot ext)) = false := by
      rw [List.any_eq_false]
      intro x hx
      rw [hext x hx]
      simp
    have hB : ¬(commandDirs.length = 0) := by
      simpa [List.length_eq_zero] using hdirs
    have hC : commandDirs.filter (fun dir => !(isAbsolutePath dir)) = [] := by
      apply List.filter_eq_nil_iff.mpr
      intro d hd
      rw [habs d hd]
      simp
    have hfiles : (commandDirs.map (fun commandDir =>
        (scanDirectory commandDir commandDir ignorePatterns extensions
          (fsys commandDir)).map (fun filePath => (commandDir, filePath)))).flatten =
        ([] : List (String × String)) := by
      apply List.flatten_eq_nil_iff.mpr
      intro l hl
      obtain ⟨d, hd, rfl⟩ := List.mem_map.mp hl
      rw [hscan d hd]
      rfl
    unfold fileCommands
    rw [hA]
    simp only [Bool.false_eq_true, if_false]
    rw [if_neg hB, hC]
    simp only [List.length_nil, Nat.lt_irrefl, if_false]
    rw [hfiles]
    rfl
  · intro cs hcs
    simp only [fileCommands] at hcs
    split at hcs
    · simp at hcs
    · split at hcs
      · simp at hcs
      · split at hcs
        · simp at hcs
        · split at hcs
          · simp at hcs
          · rename_i commands hcommands
            split at hcs
            · simp at hcs
            · rename_i hlen
              split at hcs
              · simp at hcs
              · rename_i roots hroots
                injection hcs with hcs'
                subst hcs'
                have hne : commands ≠ [] := by
                  intro hnil
                  rw [hnil] at hlen
                  simp at hlen
                have hseg : ∀ c ∈ commands, c.segments ≠ [] := by
                  intro c hc
                  obtain ⟨df, _, hdf⟩ := mapExcept_ok_mem _ _ commands hcommands c hc
                  exact processFile_segments_ne_nil _ _ _ _ c hdf
                have hr : roots ≠ [] := buildSegmentTree_ne_nil commands roots hne hseg hroots
                intro hmapnil
                rw [List.map_eq_nil_iff] at hmapnil
                exact hr hmapnil

/-- C9 witness: one empty directory, valid options — the no-commands error. -/
theorem fileCommands_no_commands_witness :
    fileCommands ["/cmds"] [".ts"] [] true (fun _ => []) (fun _ => []) =
      Except.error ("No commands found in specified directories: " ++
        String.intercalate ", " ["/cmds"]) :=
  (fileCommands_no_commands ["/cmds"] [".ts"] [] true (fun _ => []) (fun _ => [])).1
    (by decide) (by decide) (by decide) (fun d _ => rfl)

end YFC
